import Mathlib

/-!
Verification of the per-site allele-specific DNase/ATAC pipeline
(`dnase_atac_related/allele_specific_dnase.py`).

The per-site core is embedded shallowly: Python dicts become insertion-ordered
association lists, Python sequence indexing (including negative indexing and
IndexError) becomes `pyGet : List α → Int → Option α`, a `KeyError` raised by a
missing dict key becomes `none` propagated through `Option`, and the scipy
binomial test is an opaque parameter `bt : Nat → Nat → ℚ` (its numeric value is
never branched on by the pipeline).  Floats are modelled as rationals.
-/

namespace ASD

/-- A read observation, as consumed by the core: alignment start, base
sequence, per-base quality array, mismatch count (NM tag). -/
structure ReadObs where
  refStart : Int
  seq : List Char
  quals : List Int
  nm : Int
  deriving Repr, DecidableEq

/-- Configuration: max mismatches per read, minimum per-base quality at the
site, minimum pooled read count per site. -/
structure Config where
  maxMM : Int
  minQ : Int
  minReads : Int
  deriving Repr, DecidableEq

/-- Python sequence indexing: a non-negative index counts from the front, a
negative index counts from the end (`xs[i]` is `xs[len+i]`), and an index out
of range raises IndexError (modelled as `none`). -/
def pyGet {α : Type} (xs : List α) (i : Int) : Option α :=
  let j : Int := if 0 ≤ i then i else (xs.length : Int) + i
  if h : 0 ≤ j ∧ j < (xs.length : Int) then
    some (xs.get ⟨j.toNat, by omega⟩)
  else none

/-- Source lines 192-204: per-read filter.  Reject (`some false`) when the
mismatch count exceeds the maximum; otherwise look up the per-base quality at
offset `pos - refStart` (IndexError propagates as `none`) and reject when it
is strictly below the minimum. -/
def readFilter (cfg : Config) (pos : Int) (r : ReadObs) : Option Bool :=
  if cfg.maxMM < r.nm then some false
  else
    match pyGet r.quals (pos - r.refStart) with
    | none => none
    | some q => some (decide (cfg.minQ ≤ q))

/-- Keep the reads accepted by `readFilter`; an IndexError inside the filter
aborts (`none`). -/
def filterReads (cfg : Config) (pos : Int) : List ReadObs → Option (List ReadObs)
  | [] => some []
  | r :: rs =>
    match readFilter cfg pos r with
    | none => none
    | some false => filterReads cfg pos rs
    | some true => (filterReads cfg pos rs).map (r :: ·)

/-- Source lines 217-223: minimum-coverage gate.  Below the threshold the read
list is cleared and the flag is false; otherwise the reads are kept. -/
def gateReads (cfg : Config) (reads : List ReadObs) : Bool × List ReadObs :=
  if (reads.length : Int) < cfg.minReads then (false, []) else (true, reads)

/-- Source lines 250-260: the base a read shows at the site,
`read_seq[pos - reference_start]` with Python indexing. -/
def extractBase (pos : Int) (r : ReadObs) : Option Char :=
  pyGet r.seq (pos - r.refStart)

/-- One counting step of the allelic dict: increment an existing base's count
in place or append a new base with count 1 (Python dicts preserve insertion
order). -/
def bumpBase : List (Char × Nat) → Char → List (Char × Nat)
  | [], b => [(b, 1)]
  | (a, c) :: t, b => if a = b then (a, c + 1) :: t else (a, c) :: bumpBase t b

/-- Source lines 250-260: tally one base per read at the site offset;
IndexError on base extraction aborts. -/
def countBases (pos : Int) : List ReadObs → List (Char × Nat) → Option (List (Char × Nat))
  | [], d => some d
  | r :: rs, d =>
    match extractBase pos r with
    | none => none
    | some b => countBases pos rs (bumpBase d b)

/-- Source lines 273-276: scan for a substitute reference base, the loop over
the allelic dict keeping the first strictly larger non-alternate count. -/
def pickSub (alt : Char) : Char × Nat → List (Char × Nat) → Char × Nat
  | acc, [] => acc
  | acc, e :: rest =>
    if e.1 ≠ alt ∧ acc.2 < e.2 then pickSub alt e rest else pickSub alt acc rest

/-- Result of anchor resolution: anchor base and count, the reference report
string, and the comment accumulated so far. -/
structure Anchor where
  base : Char
  count : Nat
  reportRef : String
  comment : String
  deriving Repr, DecidableEq

/-- Source lines 262-282: anchor resolution.  If the designated reference base
was observed it is the anchor; otherwise the substitute scan runs, the
reference report shows `ref:0` (plus the substitute when one was found) and
the `No_Ref_Reads;Calc_rel_to_` comment is appended. -/
def anchorResolve (ref alt : Char) (entries : List (Char × Nat)) : Anchor :=
  match entries.lookup ref with
  | some c =>
    { base := ref, count := c,
      reportRef := ref.toString ++ ":" ++ toString c, comment := "" }
  | none =>
    let p := pickSub alt (ref, 0) entries
    { base := p.1, count := p.2,
      reportRef := ref.toString ++ ":0" ++
        (if p.1 ≠ ref then ";" ++ p.1.toString ++ ":" ++ toString p.2 else ""),
      comment := "No_Ref_Reads;Calc_rel_to_" ++ p.1.toString ++ ";" }

/-- Per-site result of the significance tester. -/
structure TestResult where
  reportRef : String
  reportAlt : String
  reportOther : String
  comment : String
  entries : List (Char × Nat × Option ℚ)
  deriving Repr, DecidableEq

/-- Source lines 312-319: the alternate report.  When the alternate base was
never observed, `alt:0:.` with a `No_Alt_Reads;` comment; otherwise the stored
p-value is read (a missing `pvalue` key is a KeyError, modelled as `none`). -/
def altReport (alt : Char) (comment : String)
    (entries : List (Char × Nat × Option ℚ)) : Option (String × String) :=
  match entries.lookup alt with
  | none => some (alt.toString ++ ":0:.", comment ++ "No_Alt_Reads;")
  | some (c, po) =>
    match po with
    | none => none
    | some pv =>
      some (alt.toString ++ ":" ++ toString c ++ ":" ++ toString pv, comment)

/-- Source lines 322-324: the `report_other` loop, appending
`base:count:pvalue;` for every base that is neither the anchor nor the
alternate (a missing p-value is a KeyError, modelled as `none`). -/
def assembleOther (anchorB alt : Char) (init : String) :
    List (Char × Nat × Option ℚ) → Option String
  | [] => some init
  | e :: rest =>
    if e.1 ≠ anchorB ∧ e.1 ≠ alt then
      match e.2.2 with
      | none => none
      | some pv =>
        assembleOther anchorB alt
          (init ++ e.1.toString ++ ":" ++ toString e.2.1 ++ ":" ++ toString pv ++ ";")
          rest
    else assembleOther anchorB alt init rest

/-- Source lines 262-324: the significance tester for a site with sufficient
coverage.  `bt k n` stands for the two-sided exact binomial test of `k`
successes out of `n` draws at probability one half. -/
def testSite (bt : Nat → Nat → ℚ) (ref alt : Char) (entries : List (Char × Nat)) :
    Option TestResult :=
  let a := anchorResolve ref alt entries
  if a.base = ref ∧ (entries.lookup ref).isNone then
    -- lines 286-295: degenerate case, no usable anchor
    let comment1 :=
      if (entries.lookup alt).isSome then a.comment ++ "Only_Alt_Reads;"
      else a.comment ++ "No_Ref_nor_Alt_Reads;"
    let entries1 : List (Char × Nat × Option ℚ) :=
      entries.map (fun e => (e.1, e.2, none))
    match altReport alt comment1 entries1 with
    | none => none
    | some ra =>
      match assembleOther a.base alt ".:.:." entries1 with
      | none => none
      | some ro =>
        some { reportRef := a.reportRef, reportAlt := ra.1, reportOther := ro,
               comment := ra.2, entries := entries1 }
  else
    if entries.length ≤ 1 then
      -- lines 299-303: single-allele guard
      let entries1 : List (Char × Nat × Option ℚ) :=
        entries.map (fun e => (e.1, e.2, none))
      match altReport alt "Insufficient_Alleles;" entries1 with
      | none => none
      | some ra =>
        match assembleOther a.base alt "" entries1 with
        | none => none
        | some ro =>
          some { reportRef := ".:.", reportAlt := ra.1, reportOther := ro,
                 comment := ra.2, entries := entries1 }
    else
      -- lines 306-310: binomial test for every base other than the anchor
      let entries1 : List (Char × Nat × Option ℚ) :=
        entries.map (fun e =>
          if e.1 = a.base then (e.1, e.2, (none : Option ℚ))
          else (e.1, e.2, some (bt e.2 (e.2 + a.count))))
      match altReport alt a.comment entries1 with
      | none => none
      | some ra =>
        match assembleOther a.base alt "" entries1 with
        | none => none
        | some ro =>
          some { reportRef := a.reportRef, reportAlt := ra.1, reportOther := ro,
                 comment := ra.2, entries := entries1 }

/-- Everything the downstream stages need about a processed site. -/
structure SiteOut where
  flag : Bool
  ref : Char
  alt : Char
  reportRef : String
  reportAlt : String
  reportOther : String
  comment : String
  entries : List (Char × Nat × Option ℚ)
  deriving Repr, DecidableEq

/-- Source lines 239-245: the fixed report of a site without sufficient
coverage. -/
def insufficientOut (ref alt : Char) : SiteOut :=
  { flag := false, ref := ref, alt := alt, reportRef := ".:.",
    reportAlt := ".:.:.", reportOther := ".:.:.",
    comment := "Insufficient_Total_Reads;", entries := [] }

/-- Stages 3-5 for one site, starting from the pooled filtered reads:
coverage gate, allele counting, significance testing. -/
def pipelineAfterFilter (cfg : Config) (bt : Nat → Nat → ℚ) (pos : Int)
    (ref alt : Char) (fr : List ReadObs) : Option SiteOut :=
  let g := gateReads cfg fr
  if g.1 = false then some (insufficientOut ref alt)
  else
    match countBases pos g.2 [] with
    | none => none
    | some entries =>
      match testSite bt ref alt entries with
      | none => none
      | some tr =>
        some { flag := true, ref := ref, alt := alt, reportRef := tr.reportRef,
               reportAlt := tr.reportAlt, reportOther := tr.reportOther,
               comment := tr.comment, entries := tr.entries }

/-- The whole per-site core: filter the raw reads, then gate, count and test. -/
def sitePipeline (cfg : Config) (bt : Nat → Nat → ℚ) (pos : Int)
    (ref alt : Char) (rawReads : List ReadObs) : Option SiteOut :=
  match filterReads cfg pos rawReads with
  | none => none
  | some fr => pipelineAfterFilter cfg bt pos ref alt fr

/-- Source lines 21-26 applied at line 336: `isNumber` attempts a float
conversion, which always succeeds on the float p-values the pipeline stores,
so on the embedded rationals it is constantly true. -/
def isNumber (_q : ℚ) : Bool := true

/-- Source line 336: FDR eligibility of one site, with the source's
short-circuit evaluation order; a missing alternate entry or missing stored
p-value is a KeyError (`none`). -/
def eligibleFDR (s : SiteOut) : Option Bool :=
  if s.flag = false then some false
  else
    match s.entries.lookup s.alt with
    | none => none
    | some cpo =>
      match cpo.2 with
      | none => none
      | some pv => some (isNumber pv && decide (0 < cpo.1) && (s.comment == ""))

/-- Source lines 332-337: collect the FDR pool (site key and alternate
p-value) over the sites in registry order; a KeyError anywhere aborts. -/
def buildPool : List (String × SiteOut) → Option (List (String × ℚ))
  | [] => some []
  | (k, s) :: rest =>
    match eligibleFDR s with
    | none => none
    | some false => buildPool rest
    | some true =>
      match s.entries.lookup s.alt with
      | some (_, some pv) => (buildPool rest).map ((k, pv) :: ·)
      | _ => none

/-- Source lines 402-406: the p-value/q-value output columns, `.`/`.` for a
site outside the pool. -/
def pqField : Option (ℚ × ℚ) → String
  | some pq => "\t" ++ toString pq.1 ++ "\t" ++ toString pq.2
  | none => "\t.\t."

/-- Source lines 368-373: the sort value of a key, its pool p-value or 1. -/
def assignedP (pool : List (String × ℚ)) (k : String) : ℚ :=
  (pool.lookup k).getD 1

/-- Python's lexicographic order on the `(value, key)` pairs fed to `sorted`. -/
def pairLE : ℚ × String → ℚ × String → Prop :=
  fun a b => a.1 < b.1 ∨ (a.1 = b.1 ∧ a.2 ≤ b.2)

instance instDecPairLE : DecidableRel pairLE := fun a b => by
  unfold pairLE; infer_instance

/-- Source lines 366-375: significance sort,
`[x for (y, x) in sorted(zip(sort_values, sort_keys))]`.  Python `sorted` is a
stable comparison sort; over the pairwise-distinct `(value, key)` pairs every
comparison sort agrees, and insertion sort is one. -/
def pvalueSortedKeys (keys : List String) (pool : List (String × ℚ)) : List String :=
  (List.insertionSort pairLE (keys.map (fun k => (assignedP pool k, k)))).map Prod.snd

/-- Benjamini-Hochberg, raw step: `p_(i) * m / (i + 1)` over the sorted
p-values. -/
def bhRaw (m : Nat) (sorted : List ℚ) : List ℚ :=
  sorted.enum.map (fun e => e.2 * (m : ℚ) / ((e.1 : ℚ) + 1))

/-- Running minimum from the tail, `np.minimum.accumulate` on the reversed
array. -/
def sufMin : List ℚ → List ℚ
  | [] => []
  | a :: rest =>
    match sufMin rest with
    | [] => [a]
    | b :: t => min a b :: b :: t

/-- The argsort order: by p-value, ties by index. -/
def argsortLE (ps : List ℚ) : Nat → Nat → Prop := fun i j =>
  ps.getD i 0 < ps.getD j 0 ∨ (ps.getD i 0 = ps.getD j 0 ∧ i ≤ j)

instance instDecArgsortLE (ps : List ℚ) : DecidableRel (argsortLE ps) :=
  fun i j => by unfold argsortLE; infer_instance

instance (ps : List ℚ) : IsTotal Nat (argsortLE ps) where
  total i j := by
    unfold argsortLE
    rcases lt_trichotomy (ps.getD i 0) (ps.getD j 0) with h | h | h
    · exact Or.inl (Or.inl h)
    · rcases Nat.le_total i j with h2 | h2
      · exact Or.inl (Or.inr ⟨h, h2⟩)
      · exact Or.inr (Or.inr ⟨h.symm, h2⟩)
    · exact Or.inr (Or.inl h)

instance (ps : List ℚ) : IsTrans Nat (argsortLE ps) where
  trans a b c hab hbc := by
    unfold argsortLE at hab hbc ⊢
    rcases hab with h1 | ⟨h1, h1'⟩ <;> rcases hbc with h2 | ⟨h2, h2'⟩
    · exact Or.inl (lt_trans h1 h2)
    · exact Or.inl (h2 ▸ h1)
    · exact Or.inl (h1 ▸ h2)
    · exact Or.inr ⟨h1.trans h2, le_trans h1' h2'⟩

/-- An argsort permutation of the input p-values (`np.argsort`; ties in the
p-values do not affect the corrected values, so the index tie-break is
immaterial). -/
def argsort (ps : List ℚ) : List Nat :=
  List.insertionSort (argsortLE ps) (List.range ps.length)

/-- The corrected values in sorted order: raw scaling, suffix minimum, and
the clip at 1. -/
def bhClipped (ps : List ℚ) : List ℚ :=
  (sufMin (bhRaw ps.length ((argsort ps).map (fun i => ps.getD i 0)))).map
    (fun q => min q 1)

/-- Source line 347, `statsmodels.stats.multitest.multipletests(..., fdr_bh)`:
sort the p-values, scale by `m / rank`, take the running minimum from the
largest down, clip at 1, and undo the sort. -/
def bhQvalues (ps : List ℚ) : List ℚ :=
  (List.range ps.length).map
    (fun k => (bhClipped ps).getD ((argsort ps).indexOf k) 0)

/-- Source line 158: the indel skip condition
`len(line_split[ref_col]) != 1 | len(line_split[alt_col]) != 1`.  By Python
operator precedence `|` binds tighter than `!=`, so this is the chained
comparison `len(ref) != (1 | len(alt)) != 1`, with `|` the bitwise or. -/
def skipIndel (refStr altStr : String) : Bool :=
  decide (refStr.length ≠ Nat.lor 1 altStr.length ∧ Nat.lor 1 altStr.length ≠ 1)

/-- The count a base holds in an allelic dict (0 when absent). -/
def cnt (d : List (Char × Nat)) (b : Char) : Nat :=
  (d.lookup b).getD 0

/-- A stand-in binomial test used for concrete evaluations (the pipeline never
branches on the numeric value). -/
def bt0 : Nat → Nat → ℚ := fun _ _ => 0

/-- The script's default configuration: 2 mismatches, quality 0, 10 reads. -/
def cfg0 : Config := { maxMM := 2, minQ := 0, minReads := 10 }

/-- A one-base read showing base `c`, aligned so the site offset is 0. -/
def mkRead (c : Char) : ReadObs :=
  { refStart := 0, seq := [c], quals := [30], nm := 0 }

/-- The FDR-eligible concrete site used as a witness: sufficient coverage,
both alleles observed, tested, clean comment. -/
def s0 : SiteOut :=
  { flag := true, ref := 'A', alt := 'C', reportRef := "A:7",
    reportAlt := "C:3:1/2", reportOther := "", comment := "",
    entries := [('A', 7, none), ('C', 3, some (mkRat 1 2))] }

instance : IsTotal (ℚ × String) pairLE where
  total a b := by
    unfold pairLE
    rcases lt_trichotomy a.1 b.1 with h | h | h
    · exact Or.inl (Or.inl h)
    · rcases le_total a.2 b.2 with h2 | h2
      · exact Or.inl (Or.inr ⟨h, h2⟩)
      · exact Or.inr (Or.inr ⟨h.symm, h2⟩)
    · exact Or.inr (Or.inl h)

instance : IsTrans (ℚ × String) pairLE where
  trans a b c hab hbc := by
    unfold pairLE at hab hbc ⊢
    rcases hab with h1 | ⟨h1, h1'⟩ <;> rcases hbc with h2 | ⟨h2, h2'⟩
    · exact Or.inl (lt_trans h1 h2)
    · exact Or.inl (h2 ▸ h1)
    · exact Or.inl (h1 ▸ h2)
    · exact Or.inr ⟨h1.trans h2, le_trans h1' h2'⟩

/-- Helper lemma: Python indexing at a negative in-range offset silently reads
from the end of the sequence. -/
theorem pyGet_neg {α : Type} (xs : List α) (i : Int) (h1 : i < 0)
    (h2 : -i ≤ (xs.length : Int)) :
    ∃ hlt : xs.length - (-i).toNat < xs.length,
      pyGet xs i = some (xs.get ⟨xs.length - (-i).toNat, hlt⟩) := by
  have hlt : xs.length - (-i).toNat < xs.length := by omega
  refine ⟨hlt, ?_⟩
  unfold pyGet
  have hni : ¬ (0 ≤ i) := by omega
  simp only [hni, if_false]
  have hcond : 0 ≤ (xs.length : Int) + i ∧ (xs.length : Int) + i < (xs.length : Int) := by
    omega
  rw [dif_pos hcond]
  have hv : ((xs.length : Int) + i).toNat = xs.length - (-i).toNat := by omega
  simp only [hv]

/-- Helper lemma: looking up a key absent from an association list fails. -/
theorem lookup_eq_none_of_not_mem {α β : Type} [BEq α] [LawfulBEq α]
    (l : List (α × β)) (k : α) (h : k ∉ l.map Prod.fst) : l.lookup k = none := by
  induction l with
  | nil => rfl
  | cons e t ih =>
    obtain ⟨a, b⟩ := e
    have h1 : k ≠ a := by
      intro hk
      exact h (by simp [hk])
    have h2 : k ∉ t.map Prod.fst := fun hk => h (by simp [hk])
    simpa [List.lookup, beq_eq_false_iff_ne.mpr h1] using ih h2

/-- Helper lemma: a failed lookup means no entry carries the key. -/
theorem forall_ne_of_lookup_eq_none {α β : Type} [BEq α] [LawfulBEq α]
    {l : List (α × β)} {k : α} (h : l.lookup k = none) : ∀ e ∈ l, e.1 ≠ k := by
  induction l with
  | nil => intro e he; cases he
  | cons x t ih =>
    obtain ⟨a, b⟩ := x
    by_cases hkx : k == a
    · exact absurd h (by simp [List.lookup, hkx])
    · intro e he
      rcases List.mem_cons.mp he with rfl | he2
      · intro hek
        exact absurd (by simpa using hek.symm) hkx
      · exact ih (by simpa [List.lookup, hkx] using h) e he2

/-- Helper lemma: the substitute scan (`pickSub`) computes the maximum
non-alternate count, and returns either its accumulator or the first entry
strictly exceeding everything before it (the first entry attaining the
maximum). -/
theorem pickSub_spec (alt : Char) (acc : Char × Nat) (l : List (Char × Nat)) :
    (∀ e ∈ l, e.1 ≠ alt → e.2 ≤ (pickSub alt acc l).2) ∧
    (pickSub alt acc l = acc ∨
      ((pickSub alt acc l).1 ≠ alt ∧ acc.2 < (pickSub alt acc l).2 ∧
        ∃ i, ∃ hi : i < l.length, l.get ⟨i, hi⟩ = pickSub alt acc l ∧
          ∀ j, ∀ hj : j < l.length, j < i →
            (l.get ⟨j, hj⟩).1 = alt ∨ (l.get ⟨j, hj⟩).2 < (pickSub alt acc l).2)) := by
  induction l generalizing acc with
  | nil => exact ⟨(by intro e he; cases he), Or.inl rfl⟩
  | cons e rest ih =>
    by_cases hc : e.1 ≠ alt ∧ acc.2 < e.2
    · rw [show pickSub alt acc (e :: rest) = pickSub alt e rest from by
        simp [pickSub, hc]]
      obtain ⟨ihmax, ihdisj⟩ := ih e
      have hacc_le : e.2 ≤ (pickSub alt e rest).2 := by
        rcases ihdisj with heq | ⟨_, hlt, _⟩
        · rw [heq]
        · omega
      constructor
      · intro x hx hxalt
        rcases List.mem_cons.mp hx with rfl | hx2
        · exact hacc_le
        · exact ihmax x hx2 hxalt
      · right
        rcases ihdisj with heq | ⟨hne, hlt, i, hi, hgi, hearlier⟩
        · rw [heq]
          refine ⟨hc.1, hc.2, 0, by simp, by simp, ?_⟩
          intro j hj hj0
          omega
        · refine ⟨hne, by omega, i + 1, by simpa using Nat.succ_lt_succ hi, ?_, ?_⟩
          · simpa using hgi
          · intro j hj hji
            cases j with
            | zero => exact Or.inr (by simpa using hlt)
            | succ j' =>
              have hj' : j' < rest.length := by simpa using hj
              simpa using hearlier j' hj' (by omega)
    · rw [show pickSub alt acc (e :: rest) = pickSub alt acc rest from by
        simp [pickSub]
        intro h1 h2
        exact absurd ⟨h1, h2⟩ hc]
      obtain ⟨ihmax, ihdisj⟩ := ih acc
      have hacc_le : acc.2 ≤ (pickSub alt acc rest).2 := by
        rcases ihdisj with heq | ⟨_, hlt, _⟩
        · rw [heq]
        · omega
      constructor
      · intro x hx hxalt
        rcases List.mem_cons.mp hx with rfl | hx2
        · have : x.2 ≤ acc.2 := by
            by_contra hgt
            exact hc ⟨hxalt, by omega⟩
          omega
        · exact ihmax x hx2 hxalt
      · rcases ihdisj with heq | ⟨hne, hlt, i, hi, hgi, hearlier⟩
        · exact Or.inl heq
        · right
          refine ⟨hne, hlt, i + 1, by simpa using Nat.succ_lt_succ hi, ?_, ?_⟩
          · simpa using hgi
          · intro j hj hji
            cases j with
            | zero =>
              by_cases healt : e.1 = alt
              · exact Or.inl (by simpa using healt)
              · have : e.2 ≤ acc.2 := by
                  by_contra hgt
                  exact hc ⟨healt, by omega⟩
                exact Or.inr (by simp; omega)
            | succ j' =>
              have hj' : j' < rest.length := by simpa using hj
              simpa using hearlier j' hj' (by omega)

/-- Helper lemma: a key present among an association list's keys has a
successful lookup. -/
theorem lookup_isSome_of_mem {α β : Type} [BEq α] [LawfulBEq α]
    {l : List (α × β)} {k : α} (h : k ∈ l.map Prod.fst) : (l.lookup k).isSome := by
  induction l with
  | nil => cases h
  | cons e t ih =>
    obtain ⟨a, b⟩ := e
    by_cases hka : k = a
    · simp [List.lookup, hka]
    · have : k ∈ t.map Prod.fst := by
        rcases List.mem_map.mp h with ⟨x, hx, hk⟩
        rcases List.mem_cons.mp hx with rfl | hx2
        · exact absurd hk.symm (by simpa using hka)
        · exact List.mem_map.mpr ⟨x, hx2, hk⟩
      simpa [List.lookup, beq_eq_false_iff_ne.mpr hka] using ih this

/-- Helper lemma: incrementing a base's count in the allelic dict raises its
count by one. -/
theorem cnt_bumpBase_self (d : List (Char × Nat)) (b : Char) :
    cnt (bumpBase d b) b = cnt d b + 1 := by
  induction d with
  | nil => simp [bumpBase, cnt, List.lookup]
  | cons e t ih =>
    obtain ⟨a, c⟩ := e
    by_cases hab : a = b
    · subst hab
      simp [bumpBase, cnt, List.lookup]
    · have hba : (b == a) = false := beq_eq_false_iff_ne.mpr (Ne.symm hab)
      simpa [bumpBase, cnt, List.lookup, hab, hba] using ih

/-- Helper lemma: incrementing one base leaves every other base's count
unchanged. -/
theorem cnt_bumpBase_other (d : List (Char × Nat)) (b b' : Char) (hne : b' ≠ b) :
    cnt (bumpBase d b) b' = cnt d b' := by
  induction d with
  | nil => simp [bumpBase, cnt, List.lookup, beq_eq_false_iff_ne.mpr hne]
  | cons e t ih =>
    obtain ⟨a, c⟩ := e
    by_cases hab : a = b
    · subst hab
      simp [bumpBase, cnt, List.lookup, beq_eq_false_iff_ne.mpr hne]
    · by_cases hb'a : b' = a
      · subst hb'a
        simp [bumpBase, cnt, List.lookup, hab]
      · simpa [bumpBase, cnt, List.lookup, hab,
          beq_eq_false_iff_ne.mpr hb'a] using ih

/-- Helper lemma: after counting, every base's tally equals its starting tally
plus the number of surviving reads showing that base at the site offset. -/
theorem countBases_cnt (pos : Int) (reads : List ReadObs)
    (d dd : List (Char × Nat)) (h : countBases pos reads d = some dd) (b : Char) :
    cnt dd b = cnt d b + reads.countP (fun r => extractBase pos r == some b) := by
  induction reads generalizing d with
  | nil =>
    injection h with h'
    subst h'
    simp
  | cons r rs ih =>
    unfold countBases at h
    rcases he : extractBase pos r with _ | b0 <;> rw [he] at h
    · cases h
    · have hrec := ih (bumpBase d b0) h
      rw [hrec, List.countP_cons]
      by_cases hb : b0 = b
      · subst hb
        rw [cnt_bumpBase_self]
        simp [he]
        omega
      · rw [cnt_bumpBase_other d b0 b (fun hx => hb hx.symm)]
        simp [he, hb]

/-- Helper lemma: a key whose every occurrence in the registry is ineligible
never enters the FDR pool. -/
theorem buildPool_lookup_none (sites : List (String × SiteOut))
    (pool : List (String × ℚ)) (k : String) (h : buildPool sites = some pool)
    (hk : ∀ o, (k, o) ∈ sites → eligibleFDR o = some false) :
    pool.lookup k = none := by
  induction sites generalizing pool with
  | nil =>
    injection h with h'
    subst h'
    rfl
  | cons e rest ih =>
    obtain ⟨k', s⟩ := e
    unfold buildPool at h
    rcases hel : eligibleFDR s with _ | bb <;> rw [hel] at h
    · cases h
    · cases bb with
      | false => exact ih pool h (fun o ho => hk o (List.mem_cons_of_mem _ ho))
      | true =>
        rcases hlk : s.entries.lookup s.alt with _ | ⟨c, po⟩ <;> rw [hlk] at h
        · cases h
        · rcases po with _ | pv
          · cases h
          · rcases hbp : buildPool rest with _ | pool' <;> rw [hbp] at h
            · cases h
            · injection h with h'
              subst h'
              have hk'ne : k ≠ k' := by
                intro he0
                subst he0
                have hcontra := hk s (List.mem_cons_self ..)
                rw [hel] at hcontra
                cases hcontra
              have hrest := ih pool' hbp (fun o ho => hk o (List.mem_cons_of_mem _ ho))
              simpa [List.lookup, beq_eq_false_iff_ne.mpr hk'ne] using hrest

/-- C1: the core raises on two edge cases the spec says it survives.  A
sufficient-coverage site whose reads all show the alternate base reaches the
alternate-report assembly with no stored p-value (a KeyError, source line
319), so the per-site pipeline aborts; and a sufficient-coverage site whose
alternate base was never observed survives testing but the FDR eligibility
lookup (source line 336) raises a KeyError. -/
theorem c1_core_raises :
    sitePipeline cfg0 bt0 0 'A' 'C' (List.replicate 10 (mkRead 'C')) = none ∧
    (sitePipeline cfg0 bt0 0 'A' 'C' (List.replicate 10 (mkRead 'A'))).isSome = true ∧
    (sitePipeline cfg0 bt0 0 'A' 'C' (List.replicate 10 (mkRead 'A'))).bind eligibleFDR
      = none := by
  refine ⟨by decide, by decide, by decide⟩

/-- C3: the indel-skip condition is a chained comparison, not the logical or
of the two length checks: a record with reference of length 2 and alternate of
length 1 is an indel (`len ref ≠ 1`), yet the source condition does not skip
it. -/
theorem c3_indel_skip_bug :
    skipIndel "AT" "A" = false ∧ ("AT".length ≠ 1 ∨ "A".length ≠ 1) := by
  refine ⟨by decide, by decide⟩

/-- C6 counterexample: for a sufficient-coverage site where only the reference
base is observed, the single-allele guard's comment does not survive: the
alternate-report step appends another tag and overwrites the alternate report,
so the final comment is not exactly the claimed string and the alternate
report is not the claimed placeholder. -/
theorem c6_counterexample :
    testSite bt0 'A' 'C' [('A', 10)] =
      some { reportRef := ".:.", reportAlt := "C:0:.", reportOther := "",
             comment := "Insufficient_Alleles;No_Alt_Reads;",
             entries := [('A', 10, none)] } ∧
    ("Insufficient_Alleles;No_Alt_Reads;" : String) ≠ "Insufficient_Alleles;" ∧
    ("C:0:." : String) ≠ ".:.:." := by
  refine ⟨by decide, by decide, by decide⟩

/-- C6 amended: for every site with sufficient coverage where only the
reference base is observed, the guard fires and resets `report_reference` to
`.:.`; the comment is set to `Insufficient_Alleles;` but the subsequent
alternate-report step appends `No_Alt_Reads;` and overwrites
`report_alternate` with `<alt>:0:.`; no binomial test is run (no entry stores
a p-value). -/
theorem c6_amended (bt : Nat → Nat → ℚ) (ref alt : Char) (n : Nat)
    (halt : alt ≠ ref) (_hn : 0 < n) :
    testSite bt ref alt [(ref, n)] =
      some { reportRef := ".:.", reportAlt := alt.toString ++ ":0:.",
             reportOther := "", comment := "Insufficient_Alleles;No_Alt_Reads;",
             entries := [(ref, n, none)] } := by
  have hne : (alt == ref) = false := beq_eq_false_iff_ne.mpr halt
  simp [testSite, anchorResolve, altReport, assembleOther, List.lookup, hne]

/-- C6 amended, witness at a concrete input. -/
theorem c6_amended_witness :
    ('C' : Char) ≠ 'A' ∧ 0 < 10 ∧
    testSite bt0 'A' 'C' [('A', 10)] =
      some { reportRef := ".:.", reportAlt := Char.toString 'C' ++ ":0:.",
             reportOther := "", comment := "Insufficient_Alleles;No_Alt_Reads;",
             entries := [('A', 10, none)] } :=
  ⟨by decide, by decide, c6_amended bt0 'A' 'C' 10 (by decide) (by decide)⟩

/-- C2: a site enters the FDR pool exactly when it has sufficient coverage,
its alternate-base p-value is a stored valid number, its alternate count is
positive and its quality comment is empty; and any site outside the pool
prints `.` in both the p-value and q-value output columns. -/
theorem c2_fdr_pool (s : SiteOut) :
    (eligibleFDR s = some true ↔
      s.flag = true ∧ ∃ c pv, s.entries.lookup s.alt = some (c, some pv) ∧
        isNumber pv = true ∧ 0 < c ∧ s.comment = "") ∧
    (∀ (pool : List (String × ℚ × ℚ)) (k : String),
      k ∉ pool.map Prod.fst → pqField (pool.lookup k) = "\t.\t.") := by
  constructor
  · cases hf : s.flag with
    | false =>
      simp [eligibleFDR, hf]
    | true =>
      rcases hl : s.entries.lookup s.alt with _ | ⟨c, po⟩
      · simp [eligibleFDR, hf, hl]
      · rcases po with _ | pv
        · simp [eligibleFDR, hf, hl]
        · simp [eligibleFDR, hf, hl, isNumber]
  · intro pool k hk
    rw [lookup_eq_none_of_not_mem pool k hk]
    rfl

/-- C2 witness: a concrete eligible site and a concrete non-member key. -/
theorem c2_fdr_pool_witness :
    eligibleFDR s0 = some true ∧
    pqField (([("x", (mkRat 1 2, mkRat 1 2))] : List (String × ℚ × ℚ)).lookup "y")
      = "\t.\t." :=
  ⟨(c2_fdr_pool s0).1.mpr ⟨rfl, 3, mkRat 1 2, by decide, rfl, by decide, rfl⟩,
   (c2_fdr_pool s0).2 [("x", (mkRat 1 2, mkRat 1 2))] "y" (by decide)⟩

/-- C4 counterexample: at a site with reference `C` (unobserved), alternate
`T`, and observed counts `G:5` then `A:5`, both `G` and `A` attain the maximum
non-alternate count, `A` precedes `G` lexicographically, yet the code selects
`G` (the first such base in map insertion order), so the claimed lexicographic
tie-break is false. -/
theorem c4_counterexample :
    (anchorResolve 'C' 'T' [('G', 5), ('A', 5)]).base = 'G' ∧
    ('A', 5) ∈ [('G', 5), ('A', 5)] ∧ ('A' : Char) ≠ 'T' ∧
    (∀ e ∈ [('G', 5), ('A', 5)], e.1 ≠ 'T' → e.2 ≤ 5) ∧
    ('A' : Char) < 'G' ∧ ('G' : Char) ≠ 'A' := by
  refine ⟨by decide, by decide, by decide, by decide, by decide, by decide⟩

/-- C4 amended: when the reference base has no recorded count and the
substitute scan finds a base with positive count, the anchor is a
non-alternate, non-reference base of maximal count among all non-alternate
observed bases, with ties broken by first occurrence in the counts map
(insertion order), not lexicographically; `report_reference` becomes
`<ref>:0;<substitute>:<count>` and `No_Ref_Reads;Calc_rel_to_<substitute>;`
is appended to the comment. -/
theorem c4_amended (ref alt : Char) (entries : List (Char × Nat))
    (href : entries.lookup ref = none)
    (hpos : 0 < (pickSub alt (ref, 0) entries).2) :
    ((pickSub alt (ref, 0) entries).1 ≠ alt ∧
     (pickSub alt (ref, 0) entries).1 ≠ ref) ∧
    (∀ e ∈ entries, e.1 ≠ alt → e.2 ≤ (pickSub alt (ref, 0) entries).2) ∧
    (∃ i, ∃ hi : i < entries.length,
        entries.get ⟨i, hi⟩ = pickSub alt (ref, 0) entries ∧
        ∀ j, ∀ hj : j < entries.length, j < i →
          (entries.get ⟨j, hj⟩).1 = alt ∨
          (entries.get ⟨j, hj⟩).2 < (pickSub alt (ref, 0) entries).2) ∧
    (anchorResolve ref alt entries).base = (pickSub alt (ref, 0) entries).1 ∧
    (anchorResolve ref alt entries).count = (pickSub alt (ref, 0) entries).2 ∧
    (anchorResolve ref alt entries).reportRef =
      ref.toString ++ ":0" ++ (";" ++ (pickSub alt (ref, 0) entries).1.toString
        ++ ":" ++ toString (pickSub alt (ref, 0) entries).2) ∧
    (anchorResolve ref alt entries).comment =
      "No_Ref_Reads;Calc_rel_to_" ++ (pickSub alt (ref, 0) entries).1.toString ++ ";" := by
  obtain ⟨hmax, hdisj⟩ := pickSub_spec alt (ref, 0) entries
  rcases hdisj with heq | ⟨hnalt, -, i, hi, hgi, hearlier⟩
  · rw [heq] at hpos
    exact absurd hpos (by simp)
  · have hmem : pickSub alt (ref, 0) entries ∈ entries := hgi ▸ List.get_mem ..
    have hnref : (pickSub alt (ref, 0) entries).1 ≠ ref :=
      forall_ne_of_lookup_eq_none href _ hmem
    refine ⟨⟨hnalt, hnref⟩, hmax, ⟨i, hi, hgi, hearlier⟩, ?_⟩
    unfold anchorResolve
    rw [href]
    simp [hnref]

/-- C4 amended, witness at a concrete input: reference `C` unobserved,
alternate `T`, counts `G:7` then `A:3`; the substitute is `G` with count 7. -/
theorem c4_amended_witness :
    ([('G', 7), ('A', 3)] : List (Char × Nat)).lookup 'C' = none ∧
    0 < (pickSub 'T' ('C', 0) [('G', 7), ('A', 3)]).2 ∧
    (anchorResolve 'C' 'T' [('G', 7), ('A', 3)]).reportRef =
      Char.toString 'C' ++ ":0" ++ (";" ++ (pickSub 'T' ('C', 0) [('G', 7), ('A', 3)]).1.toString
        ++ ":" ++ toString (pickSub 'T' ('C', 0) [('G', 7), ('A', 3)]).2) :=
  ⟨by decide, by decide,
   ((((c4_amended 'C' 'T' [('G', 7), ('A', 3)] (by decide) (by decide)).2).2).2).2.2.1⟩

/-- C5 counterexample: two ineligible sites in input order `b`, `a` are output
in key order `a`, `b`, so ties among ineligible sites are not broken by input
order. -/
theorem c5_counterexample :
    pvalueSortedKeys ["b", "a"] [] = ["a", "b"] ∧
    (["a", "b"] : List String) ≠ ["b", "a"] := by
  constructor
  · have hab : ("a" : String) < "b" := by
      rw [String.lt_iff_toList_lt]
      decide
    have hnot : ¬ pairLE (assignedP [] "b", "b") (assignedP [] "a", "a") := by
      rintro (h | ⟨-, h⟩)
      · simp [assignedP, List.lookup] at h
      · exact absurd hab (not_lt.mpr h)
    simp [pvalueSortedKeys, List.insertionSort, List.orderedInsert, if_neg hnot]
  · decide

/-- C5 amended: significance sorting outputs a permutation of the input keys
that is sorted by ascending assigned p-value (the pool p-value for eligible
sites, 1 for ineligible sites), with all ties broken by ascending site key
(the string ordering Python applies to the second tuple component), not by
input order. -/
theorem c5_amended (keys : List String) (pool : List (String × ℚ)) :
    List.Perm (pvalueSortedKeys keys pool) keys ∧
    List.Sorted pairLE
      ((pvalueSortedKeys keys pool).map (fun k => (assignedP pool k, k))) := by
  have hperm :
      List.Perm
        (List.insertionSort pairLE (keys.map (fun k => (assignedP pool k, k))))
        (keys.map (fun k => (assignedP pool k, k))) :=
    List.perm_insertionSort pairLE _
  constructor
  · refine ((hperm.map Prod.snd).trans ?_)
    rw [List.map_map]
    have hmap : keys.map (Prod.snd ∘ fun k => (assignedP pool k, k)) = keys :=
      (List.map_congr_left (fun a _ => rfl)).trans (List.map_id keys)
    rw [hmap]
  · have hsorted := List.sorted_insertionSort pairLE
      (keys.map (fun k => (assignedP pool k, k)))
    have hfix : ∀ p ∈ List.insertionSort pairLE
        (keys.map (fun k => (assignedP pool k, k))),
        (fun k => (assignedP pool k, k)) p.2 = p := by
      intro p hp
      have hmem : p ∈ keys.map (fun k => (assignedP pool k, k)) := hperm.subset hp
      obtain ⟨k, -, rfl⟩ := List.mem_map.mp hmem
      rfl
    have heq : (pvalueSortedKeys keys pool).map (fun k => (assignedP pool k, k)) =
        List.insertionSort pairLE (keys.map (fun k => (assignedP pool k, k))) := by
      unfold pvalueSortedKeys
      rw [List.map_map]
      calc (List.insertionSort pairLE (keys.map (fun k => (assignedP pool k, k)))).map
              ((fun k => (assignedP pool k, k)) ∘ Prod.snd)
          = (List.insertionSort pairLE (keys.map (fun k => (assignedP pool k, k)))).map
              id := List.map_congr_left (fun p hp => hfix p hp)
        _ = _ := List.map_id _
    rw [heq]
    exact hsorted

/-- C7: a site below the coverage threshold is flagged insufficient with its
reads cleared, gets the fixed insufficient report, is FDR-ineligible, never
enters the pool under any registry, and prints `.` for both p-value and
q-value; a site at or above the threshold keeps its reads with the flag set,
and counting tallies exactly one base per surviving read at offset
`site.position - read.alignment_start`. -/
theorem c7_coverage_gate (cfg : Config) (bt : Nat → Nat → ℚ) (pos : Int)
    (ref alt : Char) (fr : List ReadObs) :
    ((fr.length : Int) < cfg.minReads →
      gateReads cfg fr = (false, []) ∧
      pipelineAfterFilter cfg bt pos ref alt fr = some (insufficientOut ref alt) ∧
      (insufficientOut ref alt).reportRef = ".:." ∧
      (insufficientOut ref alt).reportAlt = ".:.:." ∧
      (insufficientOut ref alt).reportOther = ".:.:." ∧
      (insufficientOut ref alt).comment = "Insufficient_Total_Reads;" ∧
      eligibleFDR (insufficientOut ref alt) = some false ∧
      (∀ (sites : List (String × SiteOut)) (pool : List (String × ℚ)) (k : String),
        buildPool sites = some pool →
        (∀ o, (k, o) ∈ sites → o = insufficientOut ref alt) →
        pool.lookup k = none) ∧
      (∀ (qp : List (String × ℚ × ℚ)) (k : String),
        k ∉ qp.map Prod.fst → pqField (qp.lookup k) = "\t.\t.")) ∧
    (cfg.minReads ≤ (fr.length : Int) →
      gateReads cfg fr = (true, fr) ∧
      ∀ dd, countBases pos fr [] = some dd →
        ∀ b, cnt dd b = fr.countP (fun r => extractBase pos r == some b)) := by
  constructor
  · intro hlt
    have hg : gateReads cfg fr = (false, []) := by
      unfold gateReads
      rw [if_pos hlt]
    refine ⟨hg, ?_, rfl, rfl, rfl, rfl, rfl, ?_, ?_⟩
    · unfold pipelineAfterFilter
      rw [hg]
      simp
    · intro sites pool k hbp hall
      refine buildPool_lookup_none sites pool k hbp (fun o ho => ?_)
      rw [hall o ho]
      rfl
    · intro qp k hk
      rw [lookup_eq_none_of_not_mem qp k hk]
      rfl
  · intro hge
    have hg : gateReads cfg fr = (true, fr) := by
      unfold gateReads
      rw [if_neg (by omega)]
    refine ⟨hg, fun dd hdd b => ?_⟩
    have := countBases_cnt pos fr [] dd hdd b
    simpa [cnt, List.lookup] using this

/-- C7 witness: nine one-base reads fall below the default threshold of ten
and yield the fixed insufficient report; ten reads pass the gate intact. -/
theorem c7_coverage_gate_witness :
    ((((List.replicate 9 (mkRead 'A')).length : Int) < cfg0.minReads ∧
      pipelineAfterFilter cfg0 bt0 0 'A' 'C' (List.replicate 9 (mkRead 'A'))
        = some (insufficientOut 'A' 'C')) ∧
     (cfg0.minReads ≤ ((List.replicate 10 (mkRead 'A')).length : Int) ∧
      gateReads cfg0 (List.replicate 10 (mkRead 'A'))
        = (true, List.replicate 10 (mkRead 'A')))) :=
  ⟨⟨by decide,
    ((c7_coverage_gate cfg0 bt0 0 'A' 'C' (List.replicate 9 (mkRead 'A'))).1
      (by decide)).2.1⟩,
   ⟨by decide,
    ((c7_coverage_gate cfg0 bt0 0 'A' 'C' (List.replicate 10 (mkRead 'A'))).2
      (by decide)).1⟩⟩

/-- Helper lemma: the suffix minimum has the length of its input. -/
theorem sufMin_length (l : List ℚ) : (sufMin l).length = l.length := by
  induction l with
  | nil => rfl
  | cons a rest ih =>
    unfold sufMin
    rcases h : sufMin rest with _ | ⟨b, t⟩
    · rw [h] at ih
      simp at ih
      simp [ih]
    · rw [h] at ih
      simp at ih
      simp
      omega

/-- Helper lemma: the raw Benjamini-Hochberg list has the input's length. -/
theorem bhRaw_length (m : Nat) (l : List ℚ) : (bhRaw m l).length = l.length := by
  simp [bhRaw]

/-- Helper lemma: the raw Benjamini-Hochberg value at rank `i` is
`p_(i) * m / (i + 1)`. -/
theorem bhRaw_get (m : Nat) (l : List ℚ) (i : Nat) (hi : i < l.length)
    (hi2 : i < (bhRaw m l).length) :
    (bhRaw m l).get ⟨i, hi2⟩ = l.get ⟨i, hi⟩ * (m : ℚ) / ((i : ℚ) + 1) := by
  unfold bhRaw
  rw [List.get_map, List.get_enum]
  rfl

/-- Helper lemma: a lower bound on every tail element is a lower bound on the
suffix minimum at that position. -/
theorem sufMin_get_ge (c : ℚ) (l : List ℚ) : ∀ (j : Nat) (hj : j < (sufMin l).length),
    (∀ i, j ≤ i → ∀ hi : i < l.length, c ≤ l.get ⟨i, hi⟩) →
    c ≤ (sufMin l).get ⟨j, hj⟩ := by
  induction l with
  | nil => intro j hj; simp [sufMin] at hj
  | cons a rest ih =>
    intro j hj hbound
    rcases hrest : sufMin rest with _ | ⟨b, t⟩
    · have hsm : sufMin (a :: rest) = [a] := by
        unfold sufMin
        rw [hrest]
      have hj1 : j < 1 := by
        have := hj
        rw [hsm] at this
        simpa using this
      have hj0 : j = 0 := by omega
      subst hj0
      rw [List.get_of_eq hsm]
      simpa using hbound 0 (Nat.le_refl 0) (by simp)
    · have hsm : sufMin (a :: rest) = min a b :: b :: t := by
        unfold sufMin
        rw [hrest]
      rw [List.get_of_eq hsm]
      cases j with
      | zero =>
        show c ≤ min a b
        refine le_min ?_ ?_
        · simpa using hbound 0 (Nat.zero_le _) (by simp)
        · have h0 : 0 < (sufMin rest).length := by rw [hrest]; simp
          have hrec := ih 0 h0 (fun i _ hi =>
            by simpa using hbound (i + 1) (by omega) (by simpa using Nat.succ_lt_succ hi))
          rw [List.get_of_eq hrest] at hrec
          simpa using hrec
      | succ j' =>
        have hj2 : j' + 1 < (min a b :: b :: t).length := by
          have := hj
          rw [hsm] at this
          simpa using this
        have hlen : j' < (sufMin rest).length := by
          rw [hrest]
          simpa using hj2
        have hrec := ih j' hlen (fun i hji hi =>
          by simpa using hbound (i + 1) (by omega) (by simpa using Nat.succ_lt_succ hi))
        rw [List.get_of_eq hrest] at hrec
        simpa using hrec

/-- Helper lemma: over a sorted list of values in `[0, 1]`, every clipped
suffix-minimum Benjamini-Hochberg value dominates the value at its rank. -/
theorem clipped_bound (l : List ℚ) (m : Nat) (hm : l.length ≤ m)
    (hsort : List.Sorted (fun a b : ℚ => a ≤ b) l)
    (hnn : ∀ x ∈ l, 0 ≤ x) (hub : ∀ x ∈ l, x ≤ 1)
    (j : Nat) (hj : j < l.length) :
    l.get ⟨j, hj⟩ ≤ ((sufMin (bhRaw m l)).map (fun q => min q 1)).getD j 0 := by
  have hlenraw : (bhRaw m l).length = l.length := bhRaw_length m l
  have hlensm : (sufMin (bhRaw m l)).length = (bhRaw m l).length := sufMin_length _
  have hjm : j < ((sufMin (bhRaw m l)).map (fun q => min q 1)).length := by
    simpa [hlensm, hlenraw] using hj
  rw [List.getD_eq_get _ _ hjm, List.get_map]
  refine le_min ?_ (hub _ (List.get_mem ..))
  refine sufMin_get_ge _ _ j (by simpa [hlensm, hlenraw] using hj) ?_
  intro i hji hi
  have hil : i < l.length := by simpa [hlenraw] using hi
  rw [bhRaw_get m l i hil hi]
  have hij : l.get ⟨j, hj⟩ ≤ l.get ⟨i, hil⟩ := by
    rcases Nat.lt_or_ge j i with hlt | hge
    · exact List.pairwise_iff_get.mp hsort ⟨j, hj⟩ ⟨i, hil⟩ hlt
    · have hji2 : i = j := by omega
      subst hji2
      exact le_refl _
  have hfac : (1 : ℚ) ≤ (m : ℚ) / ((i : ℚ) + 1) := by
    rw [le_div_iff (by positivity)]
    have him : i + 1 ≤ m := by omega
    have : (i : ℚ) + 1 ≤ (m : ℚ) := by exact_mod_cast him
    simpa using this
  have hpos : 0 ≤ l.get ⟨i, hil⟩ := hnn _ (List.get_mem ..)
  calc l.get ⟨j, hj⟩ ≤ l.get ⟨i, hil⟩ := hij
    _ = l.get ⟨i, hil⟩ * 1 := (mul_one _).symm
    _ ≤ l.get ⟨i, hil⟩ * ((m : ℚ) / ((i : ℚ) + 1)) :=
        mul_le_mul_of_nonneg_left hfac hpos
    _ = l.get ⟨i, hil⟩ * (m : ℚ) / ((i : ℚ) + 1) := (mul_div_assoc ..).symm

/-- C8: after Benjamini-Hochberg correction, the q-value assigned to every
entry of the pool is at least that entry's p-value (p-values are
probabilities, hence in `[0, 1]`). -/
theorem c8_qvalue_ge_pvalue (ps : List ℚ) (h01 : ∀ p ∈ ps, 0 ≤ p ∧ p ≤ 1) :
    (bhQvalues ps).length = ps.length ∧
    ∀ k, ∀ hk : k < ps.length, ps.get ⟨k, hk⟩ ≤ (bhQvalues ps).getD k 0 := by
  constructor
  · simp [bhQvalues]
  · intro k hk
    have hperm : List.Perm (argsort ps) (List.range ps.length) :=
      List.perm_insertionSort _ _
    have hlen : (argsort ps).length = ps.length := by
      simpa using hperm.length_eq
    have hmem : k ∈ argsort ps := hperm.mem_iff.mpr (List.mem_range.mpr hk)
    have hjlt : (argsort ps).indexOf k < (argsort ps).length :=
      List.indexOf_lt_length.mpr hmem
    have hget : (argsort ps).get ⟨(argsort ps).indexOf k, hjlt⟩ = k :=
      List.indexOf_get hjlt
    have hq : (bhQvalues ps).getD k 0 =
        (bhClipped ps).getD ((argsort ps).indexOf k) 0 := by
      unfold bhQvalues
      rw [List.getD_eq_get _ _ (by simpa using hk), List.get_map, List.get_range]
    set sorted := (argsort ps).map (fun i => ps.getD i 0) with hsorted_def
    have hslen : sorted.length = ps.length := by simp [hsorted_def, hlen]
    have hjs : (argsort ps).indexOf k < sorted.length := by
      simpa [hsorted_def] using hjlt
    have hval : sorted.get ⟨(argsort ps).indexOf k, hjs⟩ = ps.get ⟨k, hk⟩ := by
      rw [List.get_of_eq hsorted_def]
      rw [List.get_map, hget, List.getD_eq_get _ _ hk]
    have hpair : List.Pairwise (argsortLE ps) (argsort ps) :=
      List.sorted_insertionSort _ _
    have hsorted : List.Sorted (fun a b : ℚ => a ≤ b) sorted := by
      refine List.Pairwise.map _ ?_ hpair
      intro a b hab
      rcases hab with h | ⟨h, -⟩
      · exact le_of_lt h
      · exact le_of_eq h
    have hnn : ∀ x ∈ sorted, 0 ≤ x := by
      intro x hx
      obtain ⟨i, hi_mem, rfl⟩ := List.mem_map.mp hx
      have him : i < ps.length := List.mem_range.mp (hperm.subset hi_mem)
      rw [List.getD_eq_get _ _ him]
      exact (h01 _ (List.get_mem ..)).1
    have hub : ∀ x ∈ sorted, x ≤ 1 := by
      intro x hx
      obtain ⟨i, hi_mem, rfl⟩ := List.mem_map.mp hx
      have him : i < ps.length := List.mem_range.mp (hperm.subset hi_mem)
      rw [List.getD_eq_get _ _ him]
      exact (h01 _ (List.get_mem ..)).2
    have hbound := clipped_bound sorted ps.length (le_of_eq hslen) hsorted hnn hub
      ((argsort ps).indexOf k) hjs
    rw [hval] at hbound
    rw [hq]
    unfold bhClipped
    rw [← hsorted_def]
    exact hbound

/-- C8 witness: the hypothesis and conclusion at the concrete pool
`[1/2, 1/4]`. -/
theorem c8_qvalue_ge_pvalue_witness :
    (∀ p ∈ ([mkRat 1 2, mkRat 1 4] : List ℚ), 0 ≤ p ∧ p ≤ 1) ∧
    (bhQvalues [mkRat 1 2, mkRat 1 4]).length = 2 ∧
    ∀ k, ∀ hk : k < ([mkRat 1 2, mkRat 1 4] : List ℚ).length,
      ([mkRat 1 2, mkRat 1 4] : List ℚ).get ⟨k, hk⟩ ≤
        (bhQvalues [mkRat 1 2, mkRat 1 4]).getD k 0 :=
  ⟨by decide,
   ((c8_qvalue_ge_pvalue [mkRat 1 2, mkRat 1 4] (by decide)).1).trans rfl,
   (c8_qvalue_ge_pvalue [mkRat 1 2, mkRat 1 4] (by decide)).2⟩

/-- C9: the read filter accepts exactly when the mismatch count is at most the
configured maximum and the per-base quality at offset
`site.position - read.alignment_start` is at least the configured minimum; no
other per-read condition is applied. -/
theorem c9_read_filter (cfg : Config) (pos : Int) (r : ReadObs) (q : Int)
    (hq : pyGet r.quals (pos - r.refStart) = some q) :
    readFilter cfg pos r = some (decide (r.nm ≤ cfg.maxMM ∧ cfg.minQ ≤ q)) ∧
    (readFilter cfg pos r = some true ↔ (r.nm ≤ cfg.maxMM ∧ cfg.minQ ≤ q)) := by
  have hmain : readFilter cfg pos r = some (decide (r.nm ≤ cfg.maxMM ∧ cfg.minQ ≤ q)) := by
    unfold readFilter
    by_cases h : cfg.maxMM < r.nm
    · rw [if_pos h, decide_eq_false (by omega : ¬ (r.nm ≤ cfg.maxMM ∧ cfg.minQ ≤ q))]
    · rw [if_neg h, hq]
      show some (decide (cfg.minQ ≤ q)) = some (decide (r.nm ≤ cfg.maxMM ∧ cfg.minQ ≤ q))
      have : decide (cfg.minQ ≤ q) = decide (r.nm ≤ cfg.maxMM ∧ cfg.minQ ≤ q) := by
        rw [decide_eq_decide]
        constructor
        · exact fun hx => ⟨by omega, hx⟩
        · exact fun hx => hx.2
      rw [this]
  refine ⟨hmain, ?_⟩
  rw [hmain]
  simp

/-- C9 witness at a concrete input. -/
theorem c9_read_filter_witness :
    pyGet (mkRead 'A').quals ((0 : Int) - (mkRead 'A').refStart) = some 30 ∧
    readFilter cfg0 0 (mkRead 'A')
      = some (decide ((mkRead 'A').nm ≤ cfg0.maxMM ∧ cfg0.minQ ≤ 30)) :=
  ⟨by decide, (c9_read_filter cfg0 0 (mkRead 'A') 30 (by decide)).1⟩

/-- C10: when a read starts after the site, the offset is negative and both
the quality lookup in the filter and the base extraction in the counter
silently index from the end of the read (Python negative indexing) instead of
rejecting the read, whenever the offset magnitude does not exceed the
corresponding array length. -/
theorem c10_negative_offset (cfg : Config) (pos : Int) (r : ReadObs)
    (hneg : pos < r.refStart)
    (hq : r.refStart - pos ≤ (r.quals.length : Int))
    (hs : r.refStart - pos ≤ (r.seq.length : Int))
    (hnm : r.nm ≤ cfg.maxMM) :
    (∃ hlt : r.quals.length - (r.refStart - pos).toNat < r.quals.length,
       readFilter cfg pos r =
         some (decide (cfg.minQ ≤
           r.quals.get ⟨r.quals.length - (r.refStart - pos).toNat, hlt⟩))) ∧
    (∃ hlt : r.seq.length - (r.refStart - pos).toNat < r.seq.length,
       extractBase pos r =
         some (r.seq.get ⟨r.seq.length - (r.refStart - pos).toNat, hlt⟩)) := by
  have hvq := pyGet_neg r.quals (pos - r.refStart) (by omega) (by omega)
  have hvs := pyGet_neg r.seq (pos - r.refStart) (by omega) (by omega)
  have hrw : (-(pos - r.refStart)).toNat = (r.refStart - pos).toNat := by omega
  rw [hrw] at hvq hvs
  obtain ⟨hlt1, hget1⟩ := hvq
  obtain ⟨hlt2, hget2⟩ := hvs
  constructor
  · refine ⟨hlt1, ?_⟩
    unfold readFilter
    rw [if_neg (by omega : ¬ (cfg.maxMM < r.nm)), hget1]
  · exact ⟨hlt2, hget2⟩

/-- C10 witness: a concrete read starting one base after the site is filtered
and counted using the last base of the read. -/
theorem c10_negative_offset_witness :
    ((0 : Int) < 1 ∧ (1 : Int) - 0 ≤ 2 ∧ (0 : Int) ≤ 2) ∧
    (∃ hlt : 2 - ((1 : Int) - 0).toNat < 2,
       readFilter cfg0 0 { refStart := 1, seq := ['G', 'T'], quals := [30, 40], nm := 0 }
         = some (decide (cfg0.minQ ≤ ([30, 40] : List Int).get ⟨2 - ((1 : Int) - 0).toNat, hlt⟩))) := by
  refine ⟨⟨by decide, by decide, by decide⟩, ?_⟩
  exact (c10_negative_offset cfg0 0
    { refStart := 1, seq := ['G', 'T'], quals := [30, 40], nm := 0 }
    (by decide) (by decide) (by decide) (by decide)).1

end ASD
